import Mathlib

/-!
Shallow embedding of the Melodot DA core (w3f-grants-archive/melodot),
covering the confidence/sampling engine, the segment ordering helpers,
blob byte decoding, the blob-submission RPC control flow and the
farmers-fortune claim extrinsic.

All definitions are translated from the Rust source files under the
repository (crates/core-primitives/src/confidence.rs,
crates/melo-erasure-coding/src/segment.rs, primitives/src/kzg.rs,
crates/das-rpc/src/lib.rs, crates/pallet-farmers-fortune/src/lib.rs).
Machine integers are modelled as Nat (all quantities involved stay far
below the u32/usize ranges), external crypto calls are modelled as
explicit oracle parameters, randomness as an explicit stream of draws,
and the unbounded rejection-sampling loop with an explicit fuel counter
so that divergence and panics are observable outcomes.
-/

namespace Melodot

/-- From primitives/src/kzg.rs line 173: `pub const FIELD_ELEMENTS_PER_BLOB: usize = 4;`.
The config modules of melo-core-primitives / melo-das-primitives re-expose the
same constant (the spec, section 3, records that the source fixes 4). -/
def FIELD_ELEMENTS_PER_BLOB : Nat := 4

/-- From primitives/src/kzg.rs line 172. -/
def BYTES_PER_FIELD_ELEMENT : Nat := 32

/-- From primitives/src/kzg.rs line 171:
`BYTES_PER_BLOB = BYTES_PER_FIELD_ELEMENT * FIELD_ELEMENTS_PER_BLOB`. -/
def BYTES_PER_BLOB : Nat := BYTES_PER_FIELD_ELEMENT * FIELD_ELEMENTS_PER_BLOB

/-- From crates/core-primitives/src/confidence.rs line 26:
`const CHUNK_COUNT: usize = 2 ^ 4;`.  In Rust `^` is bitwise XOR, so this
constant evaluates to `2 XOR 4 = 6` (not the exponential 16). -/
def CHUNK_COUNT : Nat := 2 ^^^ 4

/-- From crates/core-primitives/src/confidence.rs line 27:
`const SAMPLES_PER_BLOB: usize = FIELD_ELEMENTS_PER_BLOB / CHUNK_COUNT;`
(integer division). -/
def SAMPLES_PER_BLOB : Nat := FIELD_ELEMENTS_PER_BLOB / CHUNK_COUNT

/-- primitives/src/kzg.rs `Position { x: u32, y: u32 }`. -/
structure Position where
  x : Nat
  y : Nat
deriving DecidableEq, Repr

/-- KZG commitments are opaque 48-byte G1 points; the confidence engine only
stores and indexes them, so they are modelled as opaque identifiers. -/
abbrev KZGCommitment := Nat

/-- crates/core-primitives/src/confidence.rs `Sample`. -/
structure Sample where
  position : Position
  is_availability : Bool
deriving DecidableEq, Repr

/-- crates/core-primitives/src/confidence.rs `Confidence`. -/
structure Confidence where
  samples : List Sample
  commitments : List KZGCommitment
deriving DecidableEq, Repr

/-- Permill (sp_arithmetic, external dependency): a parts-per-million
fixed-point fraction, represented by its parts (a number of millionths).
`Permill::one()` is 1_000_000 parts. -/
def permillOne : Nat := 1000000

/-- Permill multiplication: the product of two parts-per-million fractions,
truncated back to millionths (models sp_arithmetic `saturating_mul` on
Permill; for the powers of one half used below every step is exact, so
the rounding direction is immaterial). -/
def permillMul (a b : Nat) : Nat := a * b / 1000000

/-- Permill saturating_pow, modelled as iterated `permillMul` (the values a
Permill can hold are at most one, so no saturation can occur). -/
def permillPow (a : Nat) : Nat → Nat
  | 0 => permillOne
  | n + 1 => permillMul (permillPow a n) a

/-- Permill saturating_sub: Nat subtraction already truncates at zero. -/
def permillSub (a b : Nat) : Nat := a - b

/-- crates/core-primitives/src/confidence.rs lines 154-158:
`calculate_confidence(samples, base_factor) = one - base_factor.saturating_pow(samples)`. -/
def calculate_confidence (samples : Nat) (base_factor : Nat) : Nat :=
  permillSub permillOne (permillPow base_factor samples)

/-- crates/core-primitives/src/confidence.rs lines 85-88: count the samples
with `is_availability == true` and feed the count to `calculate_confidence`. -/
def Confidence.value (c : Confidence) (base_factor : Nat) : Nat :=
  calculate_confidence (c.samples.filter (fun s => s.is_availability)).length base_factor

/-- crates/core-primitives/src/confidence.rs lines 90-92. -/
def Confidence.exceeds_threshold (c : Confidence) (base_factor threshold : Nat) : Bool :=
  threshold < c.value base_factor

/-- Outcome of running `verify_sample`, `Result<bool, String>` in the source. -/
abbrev VerifyResult := Except String Bool

/-- crates/core-primitives/src/confidence.rs lines 116-123.  The KZG check in
the in-range branch (`segment.checked()?.verify(&kzg, &commitment, CHUNK_COUNT)`)
is cryptographic and is modelled by the oracle parameters `checked` and
`verify`; the early-return branch is translated literally. -/
def Confidence.verify_sample {σ : Type} (checked : σ → Except String σ)
    (verify : σ → KZGCommitment → Nat → VerifyResult)
    (c : Confidence) (position : Position) (segment : σ) : VerifyResult :=
  if c.commitments.length ≤ position.y then Except.ok false
  else do
    let s ← checked segment
    verify s (c.commitments.getD position.y 0) CHUNK_COUNT

/-- Outcome of the `set_sample` rejection-sampling loop: normal termination
with the accumulated positions, a Rust panic (`rand::gen_range` on an empty
range), or exhaustion of the observation fuel (the loop is still running). -/
inductive SampleOutcome where
  | ok (positions : List Position)
  | panicked
  | fuelOut
deriving DecidableEq, Repr

/-- crates/core-primitives/src/confidence.rs lines 128-147, the
`while positions.len() < n` loop.  `spb` is `SAMPLES_PER_BLOB` and `commLen`
is `self.commitments.len()`; `draws i` yields the i-th pair of raw random
values, and `gen_range(0..m)` is modelled as `draw % m` for `m > 0` and as a
panic for `m = 0` (rand panics on an empty range).  `fuel` bounds how many
iterations we observe; running out of fuel means the loop has not exited. -/
def sampleLoop (spb commLen n : Nat) (draws : Nat → Nat × Nat) (fuel i : Nat)
    (positions : List Position) : SampleOutcome :=
  if n ≤ positions.length then .ok positions
  else
    match fuel with
    | 0 => .fuelOut
    | fuel + 1 =>
      let d := draws i
      if spb = 0 ∨ commLen = 0 then .panicked
      else
        let pos : Position := ⟨d.1 % spb, d.2 % commLen⟩
        sampleLoop spb commLen n draws fuel (i + 1)
          (if pos ∈ positions then positions else positions ++ [pos])

/-- Result of `set_sample`: the updated record, a panic, or a still-running
loop. -/
inductive SetSampleResult where
  | ok (c : Confidence)
  | panicked
  | fuelOut
deriving DecidableEq, Repr

/-- crates/core-primitives/src/confidence.rs lines 128-147: run the loop from
an empty position list and overwrite `samples` with the collected positions,
each with `is_availability = false`. -/
def Confidence.set_sample (c : Confidence) (n : Nat) (draws : Nat → Nat × Nat)
    (fuel : Nat) : SetSampleResult :=
  match sampleLoop SAMPLES_PER_BLOB c.commitments.length n draws fuel 0 [] with
  | .ok ps => .ok { c with samples := ps.map (fun p => ⟨p, false⟩) }
  | .panicked => .panicked
  | .fuelOut => .fuelOut

/-! ### Segment ordering (crates/melo-erasure-coding/src/segment.rs) -/

/-- A segment, generic in the type of its content (`SegmentData` in the
source carries the scalars and the proof; the ordering helpers only move the
content around, never inspect it). -/
structure Segment (σ : Type) where
  position : Position
  content : σ
deriving DecidableEq, Repr

/-- Failure modes of the ordering helpers: the `Err(String)` values the Rust
functions return, or a Rust panic (out-of-bounds index). -/
inductive SegErr where
  | msg (s : String)
  | panicked
deriving DecidableEq, Repr

/-- The `for segment in segments.iter()` loop of `order_segments_row`
(segment.rs lines 30-35): reject a segment whose `position.y` differs from
the first segment's, otherwise write its content at index `position.x`;
writing out of bounds is the Rust indexing panic. -/
def rowLoop {σ : Type} (y : Nat) :
    List (Segment σ) → List (Option σ) → Except SegErr (List (Option σ))
  | [], acc => .ok acc
  | s :: rest, acc =>
    if s.position.y ≠ y then .error (.msg "segments y not equal")
    else if s.position.x < acc.length then
      rowLoop y rest (acc.set s.position.x (some s.content))
    else .error .panicked

/-- crates/melo-erasure-coding/src/segment.rs lines 24-37.  Checks the
segment count, then reads `segments[0].position.y` (a panic on an empty
vector), then runs the placement loop over a `None`-initialised vector of
length `2 * FIELD_ELEMENTS_PER_BLOB`. -/
def order_segments_row {σ : Type} (segments : List (Segment σ)) :
    Except SegErr (List (Option σ)) :=
  if FIELD_ELEMENTS_PER_BLOB * 2 < segments.length then
    .error (.msg "segments x not equal")
  else
    match segments with
    | [] => .error .panicked
    | s0 :: _ =>
      rowLoop s0.position.y segments (List.replicate (FIELD_ELEMENTS_PER_BLOB * 2) none)

/-- The `for segment in segments.iter()` loop of `order_segments_col`
(segment.rs lines 48-53): reject a segment whose `position.x` differs from
the first segment's, otherwise write its content at index `position.x`
(the source indexes the output with `x`, not `y`). -/
def colLoop {σ : Type} (x : Nat) :
    List (Segment σ) → List (Option σ) → Except SegErr (List (Option σ))
  | [], acc => .ok acc
  | s :: rest, acc =>
    if s.position.x ≠ x then .error (.msg "segments x not equal")
    else if s.position.x < acc.length then
      colLoop x rest (acc.set s.position.x (some s.content))
    else .error .panicked

/-- crates/melo-erasure-coding/src/segment.rs lines 39-55.  Checks the
segment count against `k * 2`, reads `segments[0].position.x` (a panic on an
empty vector), then runs the placement loop over a `None`-initialised vector
of length `k * 2`. -/
def order_segments_col {σ : Type} (segments : List (Segment σ)) (k : Nat) :
    Except SegErr (List (Option σ)) :=
  if k * 2 < segments.length then
    .error (.msg "segments x not equal")
  else
    match segments with
    | [] => .error .panicked
    | s0 :: _ =>
      colLoop s0.position.x segments (List.replicate (k * 2) none)

/-! ### Blob byte decoding (primitives/src/kzg.rs) -/

/-- The BLS12-381 scalar field modulus; `FsFr::from_bytes` (rust-kzg blst
backend) accepts exactly the 32-byte big-endian encodings of values below it. -/
def blsModulus : Nat :=
  52435875175126190479447740508185965837690552500527637822603658699938581184513

/-- Big-endian value of a byte string. -/
def bytesToNatBE (bytes : List Nat) : Nat :=
  bytes.foldl (fun acc b => acc * 256 + b) 0

/-- One step of `Blob::from_bytes` (kzg.rs lines 282-287): a chunk is first
converted to a `[u8; 32]` (failing on any other length) and then decoded by
`FsFr::from_bytes`, which rejects non-canonical (out-of-field) values. -/
def frFromBytes (chunk : List Nat) : Except String Nat :=
  if chunk.length ≠ BYTES_PER_FIELD_ELEMENT then
    .error "Chunked into incorrect number of bytes"
  else if blsModulus ≤ bytesToNatBE chunk then
    .error "Invalid scalar"
  else .ok (bytesToNatBE chunk)

/-- Helper for `chunks32`, structurally recursive on a gas counter that is
at least the list length (one chunk consumes at least one element, so the
gas never runs out before the list does). -/
def chunks32Go {α : Type} : Nat → List α → List (List α)
  | _, [] => []
  | 0, _ :: _ => []
  | gas + 1, a :: rest => ((a :: rest).take 32) :: chunks32Go gas (rest.drop 31)

/-- Rust `slice::chunks(32)`: split into consecutive chunks of 32 elements,
the last chunk possibly shorter, none empty. -/
def chunks32 {α : Type} (l : List α) : List (List α) :=
  chunks32Go l.length l

/-- `Iterator::collect::<Result<Vec<FsFr>, String>>` over the decoded chunks:
first error wins, otherwise the list of all decoded scalars. -/
def collectFr : List (List Nat) → Except String (List Nat)
  | [] => .ok []
  | c :: cs => do
    let x ← frFromBytes c
    let xs ← collectFr cs
    .ok (x :: xs)

/-- primitives/src/kzg.rs lines 279-289, `Blob::from_bytes`: chunk the bytes
by `BYTES_PER_FIELD_ELEMENT` and decode every chunk. -/
def blobFromBytes (bytes : List Nat) : Except String (List Nat) :=
  collectFr (chunks32 bytes)

/-- primitives/src/kzg.rs lines 247-258, `Blob::try_from_bytes`: demand
exactly `BYTES_PER_BLOB` bytes, then decode. -/
def blobTryFromBytes (bytes : List Nat) : Except String (List Nat) :=
  if bytes.length ≠ BYTES_PER_BLOB then
    .error "Invalid byte length"
  else blobFromBytes bytes

/-- Rust `Vec::resize(n, v)`: truncate or right-pad with `v` to length `n`. -/
def listResize {α : Type} (l : List α) (n : Nat) (v : α) : List α :=
  l.take n ++ List.replicate (n - l.length) v

/-- primitives/src/kzg.rs lines 261-277, `Blob::try_from_bytes_pad`: reject
inputs longer than `BYTES_PER_BLOB`, decode, and resize the scalar vector to
`FIELD_ELEMENTS_PER_BLOB` with zero scalars. -/
def blobTryFromBytesPad (bytes : List Nat) : Except String (List Nat) :=
  if BYTES_PER_BLOB < bytes.length then
    .error "Invalid byte length"
  else
    (blobFromBytes bytes).map (fun data =>
      if data.length = FIELD_ELEMENTS_PER_BLOB then data
      else listResize data FIELD_ELEMENTS_PER_BLOB 0)

/-! ### Blob submission RPC (crates/das-rpc/src/lib.rs) -/

/-- The hard RPC errors of das-rpc (crates/das-rpc/src/error.rs variants used
by `submit_blob_tx`). -/
inductive RpcError where
  | DecodingExtrinsicFailed
  | DecodingTransactionMetadataFailed
  | FetchTransactionMetadataFailed
  | InvalidTransactionFormat
  | DataLengthOrHashError
  | TransactionPushFailed
deriving DecidableEq, Repr

/-- crates/das-rpc/src/lib.rs lines 42-47 (the struct name carries the
source's spelling). -/
structure BlobTxSatus (Hash : Type) where
  tx_hash : Hash
  err : Option String
deriving DecidableEq, Repr

/-- The metadata returned by `get_blob_tx_param`:
`(data_hash, data_len, commitments, proofs)`. -/
structure BlobParam where
  data_hash : List Nat
  data_len : Nat
  commitments : List KZGCommitment
  proofs : List Nat
deriving DecidableEq, Repr

/-- crates/das-rpc/src/lib.rs lines 103-172, `submit_blob_tx`.  The external
calls are modelled by their observed outcomes: `xt?`/`ext?` the two decodes
of the extrinsic bytes, `param?` the runtime-API lookup, `calculateId` the
sidecar id hash, `pool` the transaction-pool submission, `verifyBytes` the
KZG batch verification of the data, and `dhtPut` whether
`put_value_to_dht` returned `Some`.  Hard errors are `Except.error`; once the
pool has accepted, the function always returns `Except.ok` with the tx hash,
recording any later trouble in the `err` field. -/
def submit_blob_tx {Xt Ext Hash : Type}
    (xt? : Option Xt) (ext? : Option Ext)
    (param? : Except String (Option BlobParam))
    (data : List Nat)
    (calculateId : List Nat → List Nat)
    (pool : Except String Hash)
    (verifyBytes : Except String Bool)
    (dhtPut : Bool) :
    Except RpcError (BlobTxSatus Hash) :=
  match xt? with
  | none => .error .DecodingExtrinsicFailed
  | some _xt =>
    match ext? with
    | none => .error .DecodingTransactionMetadataFailed
    | some _ext =>
      match param? with
      | .error _ => .error .FetchTransactionMetadataFailed
      | .ok none => .error .InvalidTransactionFormat
      | .ok (some p) =>
        if p.data_len ≠ data.length ∨ calculateId data ≠ p.data_hash then
          .error .DataLengthOrHashError
        else
          match pool with
          | .error _ => .error .TransactionPushFailed
          | .ok tx_hash =>
            match verifyBytes with
            | .ok true =>
              if dhtPut then .ok ⟨tx_hash, none⟩
              else .ok ⟨tx_hash, some "Failed to put data to DHT network."⟩
            | .ok false =>
              .ok ⟨tx_hash, some "Data verification failed. Please check your data and try again."⟩
            | .error e => .ok ⟨tx_hash, some e⟩

/-! ### Farmers-fortune claim extrinsic (crates/pallet-farmers-fortune/src/lib.rs) -/

/-- The dispatch errors of the pallet (lib.rs lines 86-102). -/
inductive ClaimError where
  | InvalidSolution
  | PreCommitNotFound
  | WinCommitNotFound
  | MaxClaimantsReached
  | AlreadyClaimed
  | StorageLimitReached
  | BlockNumberUnderflow
deriving DecidableEq, Repr

/-- Accounts are opaque identifiers. -/
abbrev AccountId := Nat

/-- crates/pallet-farmers-fortune/src/lib.rs lines 110-188, the `claim`
dispatchable, for one block.  `claimants` is the current
`ClaimantsForBlock` entry, `maxClaimants` is `T::MaxClaimantsPerBlock`,
`nowSubOk` is whether `now - 1` exists (`checked_sub`), the three `Option`
parameters are the `CommitmentFromPosition` lookups, and `solutionOk` the
outcome of `solution.verify`.  Returns the updated claimant list on
success. -/
def claim (maxClaimants : Nat) (claimants : List AccountId) (who : AccountId)
    (nowSubOk : Bool)
    (preCommit leftCommit rightCommit : Option KZGCommitment)
    (solutionOk : Bool) :
    Except ClaimError (List AccountId) :=
  if claimants.length < maxClaimants then
    if who ∈ claimants then .error .AlreadyClaimed
    else if !nowSubOk then .error .BlockNumberUnderflow
    else
      match preCommit with
      | none => .error .PreCommitNotFound
      | some _ =>
        match leftCommit with
        | none => .error .WinCommitNotFound
        | some _ =>
          match rightCommit with
          | none => .error .WinCommitNotFound
          | some _ =>
            if !solutionOk then .error .InvalidSolution
            else if claimants.length + 1 ≤ maxClaimants then
              .ok (claimants ++ [who])
            else .error .StorageLimitReached
  else .error .MaxClaimantsReached

/-- The observable effect of one `claim` dispatch: the stored claimant list
and the reward deposited to the caller.  A failed dispatch rolls back all
storage writes (Substrate dispatch semantics), so on error the list is
unchanged and no reward is paid. -/
def claimPost (maxClaimants : Nat) (claimants : List AccountId) (who : AccountId)
    (nowSubOk : Bool)
    (preCommit leftCommit rightCommit : Option KZGCommitment)
    (solutionOk : Bool) (rewardAmount : Nat) :
    List AccountId × Nat :=
  match claim maxClaimants claimants who nowSubOk preCommit leftCommit rightCommit solutionOk with
  | .ok l => (l, rewardAmount)
  | .error _ => (claimants, 0)

/-! ### Claim theorems -/

/-- Claim C1.  The claim states that `CHUNK_COUNT` equals 16 and that
`SAMPLES_PER_BLOB = FIELD_ELEMENTS_PER_BLOB / 16`.  The source writes
`2 ^ 4`, which in Rust is bitwise XOR, so the constant is 6, not 16, and
`SAMPLES_PER_BLOB = 4 / 6 = 0`.  This theorem evaluates the code at the
failing constant. -/
theorem chunk_count_is_xor_not_sixteen :
    CHUNK_COUNT = 6 ∧ CHUNK_COUNT ≠ 16 ∧ SAMPLES_PER_BLOB = 0 := by
  decide

/-- Claim C2.  The claim states that `set_sample(n)` on a record with a
non-empty commitments list yields exactly `n` distinct in-range samples.  In
the code `SAMPLES_PER_BLOB = 0` (consequence of the XOR slip in
`CHUNK_COUNT`), so the very first `rng.gen_range(0..SAMPLES_PER_BLOB)` draw
is over an empty range and panics: at the failing input (one commitment,
`n = 1`) every run panics, whatever the random draws are. -/
theorem set_sample_panics_on_one_commitment :
    ∀ (draws : Nat → Nat × Nat) (fuel : Nat),
      Confidence.set_sample ⟨[], [0]⟩ 1 draws (fuel + 1) = .panicked := by
  intro draws fuel
  rfl

/-- Claim C3.  `value(base)` equals `1 − base^k` in parts-per-million fixed
point, where `k` counts the samples with `is_availability = true`; with
`base = 0.5` (500000 parts) and 4 verified samples of 4 the value is
937500 parts = 0.9375, which exceeds the 0.8 (800000 parts) threshold. -/
theorem confidence_value_formula_and_example :
    (∀ (c : Confidence) (base : Nat),
        c.value base =
          permillSub permillOne
            (permillPow base (c.samples.filter (fun s => s.is_availability)).length)) ∧
      Confidence.value
          ⟨[⟨⟨0, 0⟩, true⟩, ⟨⟨1, 0⟩, true⟩, ⟨⟨2, 0⟩, true⟩, ⟨⟨3, 0⟩, true⟩], [0]⟩
          500000 = 937500 ∧
      Confidence.exceeds_threshold
          ⟨[⟨⟨0, 0⟩, true⟩, ⟨⟨1, 0⟩, true⟩, ⟨⟨2, 0⟩, true⟩, ⟨⟨3, 0⟩, true⟩], [0]⟩
          500000 800000 = true := by
  refine ⟨fun c base => rfl, by decide, by decide⟩

/-- Claim C4.  `verify_sample` with a position whose `y` is at least the
length of the commitments list returns `Ok(false)`, never an error, for any
segment and any behaviour of the KZG checking oracles. -/
theorem verify_sample_out_of_range_is_ok_false :
    ∀ {σ : Type} (checked : σ → Except String σ)
      (verify : σ → KZGCommitment → Nat → VerifyResult)
      (c : Confidence) (position : Position) (segment : σ),
      c.commitments.length ≤ position.y →
      Confidence.verify_sample checked verify c position segment = .ok false := by
  intro σ checked verify c position segment h
  unfold Confidence.verify_sample
  rw [if_pos h]

/-- Witness for C4: a record with no commitments and position `(0, 3)`. -/
theorem verify_sample_out_of_range_witness :
    Confidence.verify_sample (fun s => Except.ok s) (fun _ _ _ => Except.ok true)
      ⟨[], []⟩ ⟨0, 3⟩ (0 : Nat) = .ok false :=
  verify_sample_out_of_range_is_ok_false (fun s => Except.ok s)
    (fun _ _ _ => Except.ok true) ⟨[], []⟩ ⟨0, 3⟩ 0 (Nat.zero_le 3)

/-- Claim C7.  When both decodes succeed, the runtime metadata is found and
consistent with the data, and the transaction pool accepts the extrinsic,
then a failed DHT put (after successful byte verification) yields a
successful RPC response carrying the tx hash and
`err = "Failed to put data to DHT network."`, never a hard error. -/
theorem submit_blob_tx_dht_failure_is_soft :
    ∀ {Xt Ext Hash : Type} (xt : Xt) (ext : Ext) (p : BlobParam)
      (data : List Nat) (calculateId : List Nat → List Nat) (h : Hash),
      p.data_len = data.length →
      calculateId data = p.data_hash →
      submit_blob_tx (some xt) (some ext) (Except.ok (some p)) data calculateId
          (Except.ok h) (Except.ok true) false =
        .ok ⟨h, some "Failed to put data to DHT network."⟩ := by
  intro Xt Ext Hash xt ext p data calculateId h hlen hhash
  simp [submit_blob_tx, hlen, hhash]

/-- Witness for C7: empty data, matching zero-length metadata, pool hash 7. -/
theorem submit_blob_tx_dht_failure_witness :
    submit_blob_tx (some 0) (some 0) (Except.ok (some ⟨[], 0, [], []⟩)) []
        (fun l => l) (Except.ok 7) (Except.ok true) false =
      .ok ⟨7, some "Failed to put data to DHT network."⟩ :=
  submit_blob_tx_dht_failure_is_soft 0 0 ⟨[], 0, [], []⟩ [] (fun l => l) 7 rfl rfl

/-- Claim C9.  Both ordering helpers read `segments[0]` before checking for
emptiness, so on an empty segment vector they panic (modelled as the
distinguished `panicked` outcome) instead of returning an `Err` value. -/
theorem order_segments_empty_input_panics :
    ∀ (σ : Type) (k : Nat),
      order_segments_row ([] : List (Segment σ)) = .error .panicked ∧
        order_segments_col ([] : List (Segment σ)) k = .error .panicked := by
  intro σ k
  refine ⟨rfl, ?_⟩
  unfold order_segments_col
  rw [if_neg]
  simp

/-- A duplicate-free list of positions with `x < a` and `y < b` injects into
the numbers below `a * b` via `y * a + x`, so it has at most `a * b`
elements. -/
theorem nodup_inrange_length_le (l : List Position) (a b : Nat)
    (hnd : l.Nodup) (hin : ∀ p ∈ l, p.x < a ∧ p.y < b) : l.length ≤ a * b := by
  classical
  have hmapnd : (l.map (fun p => p.y * a + p.x)).Nodup := by
    refine hnd.map_on ?_
    intro p hp q hq he
    obtain ⟨hpx, hpy⟩ := hin p hp
    obtain ⟨hqx, hqy⟩ := hin q hq
    have ha : 0 < a := Nat.lt_of_le_of_lt (Nat.zero_le _) hpx
    have key : ∀ (y x : Nat), x < a → (y * a + x) % a = x := by
      intro y x hx
      rw [Nat.mul_comm, Nat.mul_add_mod, Nat.mod_eq_of_lt hx]
    have keyd : ∀ (y x : Nat), x < a → (y * a + x) / a = y := by
      intro y x hx
      rw [Nat.mul_comm, Nat.mul_add_div ha, Nat.div_eq_of_lt hx, Nat.add_zero]
    have hx : p.x = q.x := by
      rw [← key p.y p.x hpx, ← key q.y q.x hqx, he]
    have hy : p.y = q.y := by
      rw [← keyd p.y p.x hpx, ← keyd q.y q.x hqx, he]
    cases p; cases q; simp_all
  have hlt : ∀ v ∈ l.map (fun p => p.y * a + p.x), v < a * b := by
    intro v hv
    simp only [List.mem_map] at hv
    obtain ⟨p, hp, rfl⟩ := hv
    obtain ⟨hpx, hpy⟩ := hin p hp
    calc p.y * a + p.x < p.y * a + a := by omega
      _ = (p.y + 1) * a := by ring
      _ ≤ b * a := Nat.mul_le_mul_right a (by omega)
      _ = a * b := Nat.mul_comm b a
  have hsub : (l.map (fun p => p.y * a + p.x)).toFinset ⊆ Finset.range (a * b) := by
    intro v hv
    rw [List.mem_toFinset] at hv
    exact Finset.mem_range.mpr (hlt v hv)
  have hcard := Finset.card_le_card hsub
  rw [List.toFinset_card_of_nodup hmapnd, Finset.card_range] at hcard
  simpa using hcard

/-- The loop returns immediately once enough positions are collected. -/
theorem sampleLoop_done (spb commLen n : Nat) (draws : Nat → Nat × Nat)
    (fuel i : Nat) (ps : List Position) (hg : n ≤ ps.length) :
    sampleLoop spb commLen n draws fuel i ps = .ok ps := by
  rw [sampleLoop.eq_def, if_pos hg]

/-- Out of fuel while the loop is still running. -/
theorem sampleLoop_fuelOut (spb commLen n : Nat) (draws : Nat → Nat × Nat)
    (i : Nat) (ps : List Position) (hg : ¬ n ≤ ps.length) :
    sampleLoop spb commLen n draws 0 i ps = .fuelOut := by
  rw [sampleLoop.eq_def, if_neg hg]

/-- A zero-sized draw range panics as soon as the loop body runs. -/
theorem sampleLoop_panics (spb commLen n : Nat) (draws : Nat → Nat × Nat)
    (fuel i : Nat) (ps : List Position) (hg : ¬ n ≤ ps.length)
    (hz : spb = 0 ∨ commLen = 0) :
    sampleLoop spb commLen n draws (fuel + 1) i ps = .panicked := by
  rw [sampleLoop.eq_def, if_neg hg]
  exact if_pos hz

/-- One productive iteration of the loop. -/
theorem sampleLoop_step (spb commLen n : Nat) (draws : Nat → Nat × Nat)
    (fuel i : Nat) (ps : List Position) (hg : ¬ n ≤ ps.length)
    (hz : ¬ (spb = 0 ∨ commLen = 0)) :
    sampleLoop spb commLen n draws (fuel + 1) i ps =
      sampleLoop spb commLen n draws fuel (i + 1)
        (if (⟨(draws i).1 % spb, (draws i).2 % commLen⟩ : Position) ∈ ps then ps
         else ps ++ [⟨(draws i).1 % spb, (draws i).2 % commLen⟩]) := by
  rw [sampleLoop.eq_def, if_neg hg]
  exact if_neg hz

/-- Invariant of the rejection-sampling loop: starting from a duplicate-free,
in-range accumulator, a normal exit yields a duplicate-free, in-range list of
at least `n` positions. -/
theorem sampleLoop_ok_invariant (spb commLen n : Nat) (draws : Nat → Nat × Nat) :
    ∀ (fuel i : Nat) (ps res : List Position),
      ps.Nodup → (∀ p ∈ ps, p.x < spb ∧ p.y < commLen) →
      sampleLoop spb commLen n draws fuel i ps = .ok res →
      res.Nodup ∧ (∀ p ∈ res, p.x < spb ∧ p.y < commLen) ∧ n ≤ res.length := by
  intro fuel
  induction fuel with
  | zero =>
    intro i ps res hnd hin h
    by_cases hg : n ≤ ps.length
    · rw [sampleLoop_done spb commLen n draws 0 i ps hg] at h
      cases h
      exact ⟨hnd, hin, hg⟩
    · rw [sampleLoop_fuelOut spb commLen n draws i ps hg] at h
      cases h
  | succ fuel ih =>
    intro i ps res hnd hin h
    by_cases hg : n ≤ ps.length
    · rw [sampleLoop_done spb commLen n draws (fuel + 1) i ps hg] at h
      cases h
      exact ⟨hnd, hin, hg⟩
    · by_cases hz : spb = 0 ∨ commLen = 0
      · rw [sampleLoop_panics spb commLen n draws fuel i ps hg hz] at h
        cases h
      · rw [sampleLoop_step spb commLen n draws fuel i ps hg hz] at h
        push_neg at hz
        refine ih (i + 1) _ res ?_ ?_ h
        · by_cases hm : (⟨(draws i).1 % spb, (draws i).2 % commLen⟩ : Position) ∈ ps
          · simpa [hm] using hnd
          · rw [if_neg hm]
            simp [List.nodup_append, hnd, hm]
        · intro p hp
          by_cases hm : (⟨(draws i).1 % spb, (draws i).2 % commLen⟩ : Position) ∈ ps
          · rw [if_pos hm] at hp
            exact hin p hp
          · rw [if_neg hm] at hp
            rcases List.mem_append.mp hp with hp | hp
            · exact hin p hp
            · rcases List.mem_singleton.mp hp with rfl
              exact ⟨Nat.mod_lt _ (Nat.pos_of_ne_zero hz.1),
                Nat.mod_lt _ (Nat.pos_of_ne_zero hz.2)⟩

/-- Claim C10 (amended).  For every request of `n ≥ 1` positions: the
rejection-sampling loop exits normally only if `SAMPLES_PER_BLOB` and the
commitment count are positive and `n` is at most their product (the number of
distinct positions); with a zero `SAMPLES_PER_BLOB` or an empty commitments
list the first random-range draw panics.  In the shipped code
`SAMPLES_PER_BLOB = 0`, so every `set_sample` call with `n ≥ 1` panics,
whatever the record and the random draws.  (For `n = 0` the loop body never
runs, so `set_sample(0)` terminates normally even without the
precondition — this is the one correction to the claim as stated.) -/
theorem set_sample_terminates_only_with_capacity :
    ∀ (spb commLen n : Nat) (draws : Nat → Nat × Nat),
      1 ≤ n →
      ((spb = 0 ∨ commLen = 0) →
        ∀ fuel i, sampleLoop spb commLen n draws (fuel + 1) i [] = .panicked) ∧
      (∀ fuel i res, sampleLoop spb commLen n draws fuel i [] = .ok res →
        0 < spb ∧ 0 < commLen ∧ n ≤ spb * commLen) ∧
      (∀ (c : Confidence) fuel, Confidence.set_sample c n draws (fuel + 1) = .panicked) := by
  intro spb commLen n draws hn
  have hg : ¬ n ≤ ([] : List Position).length := by
    simpa using Nat.one_le_iff_ne_zero.mp hn
  refine ⟨?_, ?_, ?_⟩
  · intro hz fuel i
    exact sampleLoop_panics spb commLen n draws fuel i [] hg hz
  · intro fuel i res h
    obtain ⟨hnd, hin, hlen⟩ :=
      sampleLoop_ok_invariant spb commLen n draws fuel i [] res (List.nodup_nil)
        (by intro p hp; cases hp) h
    cases res with
    | nil => simp at hlen; omega
    | cons p rest =>
      obtain ⟨hpx, hpy⟩ := hin p (List.mem_cons_self p rest)
      refine ⟨Nat.lt_of_le_of_lt (Nat.zero_le _) hpx,
        Nat.lt_of_le_of_lt (Nat.zero_le _) hpy, ?_⟩
      exact Nat.le_trans hlen (nodup_inrange_length_le _ spb commLen hnd hin)
  · intro c fuel
    unfold Confidence.set_sample
    rw [sampleLoop_panics SAMPLES_PER_BLOB c.commitments.length n draws fuel 0 [] hg
      (Or.inl (by decide))]

/-- Counterexample to Claim C10 as stated: with `n = 0` the loop body never
runs, so `set_sample(0)` on a record with an empty commitments list (and with
the shipped `SAMPLES_PER_BLOB = 0`) terminates normally — no random-range
draw happens, no panic, and the stated precondition does not hold. -/
theorem set_sample_zero_request_terminates :
    Confidence.set_sample ⟨[], []⟩ 0 (fun _ => (0, 0)) 1 = .ok ⟨[], []⟩ ∧
      SAMPLES_PER_BLOB = 0 := by
  exact ⟨rfl, rfl⟩

/-- Witness for C10: with `spb = 0`, one commitment and `n = 1`, the first
iteration panics. -/
theorem set_sample_terminates_only_with_capacity_witness :
    sampleLoop 0 1 1 (fun _ => (0, 0)) 1 0 [] = .panicked :=
  (set_sample_terminates_only_with_capacity 0 1 1 (fun _ => (0, 0))
    (Nat.le_refl 1)).1 (Or.inl rfl) 0 0

/-- The content of the last segment in the list whose `position.x` equals
`i`, if any: this is what a sequence of `vector[segment.position.x] = value`
writes leaves in slot `i`. -/
def lastWrite {σ : Type} : List (Segment σ) → Nat → Option σ
  | [], _ => none
  | s :: rest, i =>
    match lastWrite rest i with
    | some c => some c
    | none => if s.position.x = i then some s.content else none

/-- Success characterisation of the `order_segments_row` placement loop:
when every segment carries the expected `y` and an in-range `x`, the loop
succeeds and slot `i` holds the last write at `i`, or the initial slot value
when nothing was written there. -/
theorem rowLoop_ok_of_valid {σ : Type} (y : Nat) :
    ∀ (segs : List (Segment σ)) (acc : List (Option σ)),
      (∀ s ∈ segs, s.position.y = y ∧ s.position.x < acc.length) →
      ∃ v, rowLoop y segs acc = .ok v ∧ v.length = acc.length ∧
        ∀ i, i < acc.length →
          v.getD i none =
            match lastWrite segs i with
            | some c => some c
            | none => acc.getD i none := by
  intro segs
  induction segs with
  | nil =>
    intro acc hval
    exact ⟨acc, rfl, rfl, fun i hi => by simp [lastWrite]⟩
  | cons s rest ih =>
    intro acc hval
    obtain ⟨hy, hx⟩ := hval s (List.mem_cons_self s rest)
    have hval' : ∀ t ∈ rest,
        t.position.y = y ∧ t.position.x < (acc.set s.position.x (some s.content)).length := by
      intro t ht
      simpa [List.length_set] using hval t (List.mem_cons_of_mem s ht)
    obtain ⟨v, hv, hlen, hslots⟩ := ih (acc.set s.position.x (some s.content)) hval'
    refine ⟨v, ?_, ?_, ?_⟩
    · simp only [rowLoop]
      rw [if_neg (not_not_intro hy), if_pos hx]
      exact hv
    · rw [hlen, List.length_set]
    · intro i hi
      have hi' : i < (acc.set s.position.x (some s.content)).length := by
        simpa [List.length_set] using hi
      rw [hslots i hi']
      cases hw : lastWrite rest i with
      | some c => simp [lastWrite, hw]
      | none =>
        simp only [lastWrite, hw]
        by_cases hxi : s.position.x = i
        · subst hxi
          simp [List.getD_eq_getElem?_getD, List.getElem?_set_self hx]
        · simp [List.getD_eq_getElem?_getD, List.getElem?_set_ne hxi, hxi]

/-- Error characterisation of the `order_segments_row` placement loop: if all
writes are in range but some segment carries a different `y`, the loop stops
with the mixing error. -/
theorem rowLoop_mix_error {σ : Type} (y : Nat) :
    ∀ (segs : List (Segment σ)) (acc : List (Option σ)),
      (∀ s ∈ segs, s.position.x < acc.length) →
      (∃ s ∈ segs, s.position.y ≠ y) →
      rowLoop y segs acc = .error (.msg "segments y not equal") := by
  intro segs
  induction segs with
  | nil =>
    intro acc hval hmix
    obtain ⟨s, hs, _⟩ := hmix
    cases hs
  | cons s rest ih =>
    intro acc hval hmix
    by_cases hsy : s.position.y = y
    · obtain ⟨t, ht, hty⟩ := hmix
      have htr : t ∈ rest := by
        rcases List.mem_cons.mp ht with rfl | htr
        · exact absurd hsy hty
        · exact htr
      have hx := hval s (List.mem_cons_self s rest)
      simp only [rowLoop]
      rw [if_neg (not_not_intro hsy), if_pos hx]
      refine ih _ ?_ ⟨t, htr, hty⟩
      intro u hu
      simpa [List.length_set] using hval u (List.mem_cons_of_mem s hu)
    · simp only [rowLoop]
      rw [if_pos hsy]

/-- Success characterisation of the `order_segments_col` placement loop: when
every segment carries the expected `x` and `x` is in range, the loop
succeeds; slots are still governed by `lastWrite` keyed on `position.x`,
because the source writes at index `x`, never at `y`. -/
theorem colLoop_ok_of_valid {σ : Type} (x : Nat) :
    ∀ (segs : List (Segment σ)) (acc : List (Option σ)),
      (∀ s ∈ segs, s.position.x = x) → x < acc.length →
      ∃ v, colLoop x segs acc = .ok v ∧ v.length = acc.length ∧
        ∀ i, i < acc.length →
          v.getD i none =
            match lastWrite segs i with
            | some c => some c
            | none => acc.getD i none := by
  intro segs
  induction segs with
  | nil =>
    intro acc hval hx
    exact ⟨acc, rfl, rfl, fun i hi => by simp [lastWrite]⟩
  | cons s rest ih =>
    intro acc hval hx
    have hsx : s.position.x = x := hval s (List.mem_cons_self s rest)
    have hxacc : s.position.x < acc.length := by rw [hsx]; exact hx
    have hval' : ∀ t ∈ rest, t.position.x = x := fun t ht =>
      hval t (List.mem_cons_of_mem s ht)
    have hx' : x < (acc.set s.position.x (some s.content)).length := by
      simpa [List.length_set] using hx
    obtain ⟨v, hv, hlen, hslots⟩ := ih (acc.set s.position.x (some s.content)) hval' hx'
    refine ⟨v, ?_, ?_, ?_⟩
    · simp only [colLoop]
      rw [if_neg (not_not_intro hsx), if_pos hxacc]
      exact hv
    · rw [hlen, List.length_set]
    · intro i hi
      have hi' : i < (acc.set s.position.x (some s.content)).length := by
        simpa [List.length_set] using hi
      rw [hslots i hi']
      cases hw : lastWrite rest i with
      | some c => simp [lastWrite, hw]
      | none =>
        simp only [lastWrite, hw]
        by_cases hxi : s.position.x = i
        · subst hxi
          simp [List.getD_eq_getElem?_getD, List.getElem?_set_self hxacc]
        · simp [List.getD_eq_getElem?_getD, List.getElem?_set_ne hxi, hxi]

/-- Error characterisation of the `order_segments_col` placement loop: if the
shared `x` is in range but some segment carries a different `x`, the loop
stops with the mixing error. -/
theorem colLoop_mix_error {σ : Type} (x : Nat) :
    ∀ (segs : List (Segment σ)) (acc : List (Option σ)),
      x < acc.length →
      (∃ s ∈ segs, s.position.x ≠ x) →
      colLoop x segs acc = .error (.msg "segments x not equal") := by
  intro segs
  induction segs with
  | nil =>
    intro acc hx hmix
    obtain ⟨s, hs, _⟩ := hmix
    cases hs
  | cons s rest ih =>
    intro acc hx hmix
    by_cases hsx : s.position.x = x
    · obtain ⟨t, ht, htx⟩ := hmix
      have htr : t ∈ rest := by
        rcases List.mem_cons.mp ht with rfl | htr
        · exact absurd hsx htx
        · exact htr
      have hxacc : s.position.x < acc.length := by rw [hsx]; exact hx
      simp only [colLoop]
      rw [if_neg (not_not_intro hsx), if_pos hxacc]
      refine ih _ ?_ ⟨t, htr, htx⟩
      simpa [List.length_set] using hx
    · simp only [colLoop]
      rw [if_pos hsx]

/-- Counterexample to Claim C5 as stated.  First input: two row segments with
the same position (a duplicate) are accepted with `Ok`, not rejected — the
later content silently overwrites the earlier one.  Second input: two column
segments with distinct valid positions `(0,0)` and `(0,1)` and `k = 1` are
accepted, but both contents are written to index `x = 0` (the source indexes
the output with `position.x`), so slot 1 stays `None` and the first content
is lost, contradicting "each segment's content placed at its slot". -/
theorem order_segments_counterexample :
    order_segments_row [(⟨⟨0, 0⟩, 10⟩ : Segment Nat), ⟨⟨0, 0⟩, 20⟩] =
        .ok [some 20, none, none, none, none, none, none, none] ∧
      order_segments_col [(⟨⟨0, 0⟩, 10⟩ : Segment Nat), ⟨⟨0, 1⟩, 20⟩] 1 =
        .ok [some 20, none] := by
  exact ⟨rfl, rfl⟩

/-- Claim C5 (amended).  For a non-empty input whose writes stay in range:
`order_segments_row` fails exactly on excess segments (more than
`2·FIELD_ELEMENTS_PER_BLOB`) or on a segment whose `y` differs from the
first segment's; `order_segments_col` fails exactly on excess segments (more
than `2k`) or on a segment whose `x` differs from the first segment's.
Duplicate positions are NOT detected: on success each slot `i` holds the
content of the LAST segment with `position.x = i` (`lastWrite`).  In
particular `order_segments_col` writes every content at the shared column
index `x` — never at `y` — so at most one slot of the column vector is ever
filled. -/
theorem order_segments_characterisation :
    ∀ (σ : Type),
      (∀ (segs : List (Segment σ)),
        FIELD_ELEMENTS_PER_BLOB * 2 < segs.length →
        order_segments_row segs = .error (.msg "segments x not equal")) ∧
      (∀ (s0 : Segment σ) (rest : List (Segment σ)),
        (s0 :: rest).length ≤ FIELD_ELEMENTS_PER_BLOB * 2 →
        (∀ s ∈ s0 :: rest, s.position.y = s0.position.y ∧
            s.position.x < FIELD_ELEMENTS_PER_BLOB * 2) →
        ∃ v, order_segments_row (s0 :: rest) = .ok v ∧
          v.length = FIELD_ELEMENTS_PER_BLOB * 2 ∧
          ∀ i, i < FIELD_ELEMENTS_PER_BLOB * 2 →
            v.getD i none = lastWrite (s0 :: rest) i) ∧
      (∀ (s0 : Segment σ) (rest : List (Segment σ)),
        (s0 :: rest).length ≤ FIELD_ELEMENTS_PER_BLOB * 2 →
        (∀ s ∈ s0 :: rest, s.position.x < FIELD_ELEMENTS_PER_BLOB * 2) →
        (∃ s ∈ s0 :: rest, s.position.y ≠ s0.position.y) →
        order_segments_row (s0 :: rest) = .error (.msg "segments y not equal")) ∧
      (∀ (segs : List (Segment σ)) (k : Nat),
        k * 2 < segs.length →
        order_segments_col segs k = .error (.msg "segments x not equal")) ∧
      (∀ (s0 : Segment σ) (rest : List (Segment σ)) (k : Nat),
        (s0 :: rest).length ≤ k * 2 →
        (∀ s ∈ s0 :: rest, s.position.x = s0.position.x) →
        s0.position.x < k * 2 →
        ∃ v, order_segments_col (s0 :: rest) k = .ok v ∧ v.length = k * 2 ∧
          ∀ i, i < k * 2 → v.getD i none = lastWrite (s0 :: rest) i) ∧
      (∀ (s0 : Segment σ) (rest : List (Segment σ)) (k : Nat),
        (s0 :: rest).length ≤ k * 2 →
        s0.position.x < k * 2 →
        (∃ s ∈ s0 :: rest, s.position.x ≠ s0.position.x) →
        order_segments_col (s0 :: rest) k = .error (.msg "segments x not equal")) := by
  intro σ
  refine ⟨?_, ?_, ?_, ?_, ?_, ?_⟩
  · intro segs hlen
    unfold order_segments_row
    rw [if_pos hlen]
  · intro s0 rest hlen hval
    obtain ⟨v, hv, hvlen, hslots⟩ :=
      rowLoop_ok_of_valid s0.position.y (s0 :: rest)
        (List.replicate (FIELD_ELEMENTS_PER_BLOB * 2) none)
        (by simpa [List.length_replicate] using hval)
    refine ⟨v, ?_, by simpa [List.length_replicate] using hvlen, ?_⟩
    · unfold order_segments_row
      rw [if_neg (Nat.not_lt.mpr hlen)]
      exact hv
    · intro i hi
      have hi' : i < (List.replicate (FIELD_ELEMENTS_PER_BLOB * 2) (none : Option σ)).length := by
        simpa [List.length_replicate] using hi
      rw [hslots i hi']
      cases hw : lastWrite (s0 :: rest) i <;> simp [List.getD_eq_getElem?_getD, List.getElem?_replicate, hi]
  · intro s0 rest hlen hval hmix
    unfold order_segments_row
    rw [if_neg (Nat.not_lt.mpr hlen)]
    exact rowLoop_mix_error s0.position.y (s0 :: rest) _
      (by simpa [List.length_replicate] using hval) hmix
  · intro segs k hlen
    unfold order_segments_col
    rw [if_pos hlen]
  · intro s0 rest k hlen hval hx
    obtain ⟨v, hv, hvlen, hslots⟩ :=
      colLoop_ok_of_valid s0.position.x (s0 :: rest)
        (List.replicate (k * 2) none) hval
        (by simpa [List.length_replicate] using hx)
    refine ⟨v, ?_, by simpa [List.length_replicate] using hvlen, ?_⟩
    · unfold order_segments_col
      rw [if_neg (Nat.not_lt.mpr hlen)]
      exact hv
    · intro i hi
      have hi' : i < (List.replicate (k * 2) (none : Option σ)).length := by
        simpa [List.length_replicate] using hi
      rw [hslots i hi']
      cases hw : lastWrite (s0 :: rest) i <;> simp [List.getD_eq_getElem?_getD, List.getElem?_replicate, hi]
  · intro s0 rest k hlen hx hmix
    unfold order_segments_col
    rw [if_neg (Nat.not_lt.mpr hlen)]
    exact colLoop_mix_error s0.position.x (s0 :: rest) _
      (by simpa [List.length_replicate] using hx) hmix

/-- Witness for C5: a single row segment at `(0,0)` with content 5 is placed
successfully, slot 0 holding it and the full vector having length 8. -/
theorem order_segments_characterisation_witness :
    ∃ v, order_segments_row [(⟨⟨0, 0⟩, 5⟩ : Segment Nat)] = .ok v ∧
      v.length = FIELD_ELEMENTS_PER_BLOB * 2 ∧
      ∀ i, i < FIELD_ELEMENTS_PER_BLOB * 2 →
        v.getD i none = lastWrite [(⟨⟨0, 0⟩, 5⟩ : Segment Nat)] i :=
  (order_segments_characterisation Nat).2.1 ⟨⟨0, 0⟩, 5⟩ [] (by decide) (by decide)

/-- If every chunk decodes, collecting yields the list of decoded values. -/
theorem collectFr_ok :
    ∀ (cs : List (List Nat)),
      (∀ c ∈ cs, frFromBytes c = .ok (bytesToNatBE c)) →
      collectFr cs = .ok (cs.map bytesToNatBE) := by
  intro cs
  induction cs with
  | nil => intro _; rfl
  | cons c rest ih =>
    intro h
    have hc := h c (List.mem_cons_self c rest)
    have hrest := ih (fun t ht => h t (List.mem_cons_of_mem c ht))
    simp only [collectFr, hc, hrest]
    rfl

/-- Gas-indexed bound: a list of at most `32 * k` elements splits into at
most `k` chunks, whatever the gas. -/
theorem chunks32Go_length_le {α : Type} :
    ∀ (gas : Nat) (l : List α) (k : Nat),
      l.length ≤ 32 * k → (chunks32Go gas l).length ≤ k := by
  intro gas
  induction gas with
  | zero =>
    intro l k _
    cases l <;> simp [chunks32Go]
  | succ gas ih =>
    intro l k hl
    cases l with
    | nil => simp [chunks32Go]
    | cons a rest =>
      cases k with
      | zero =>
        simp only [List.length_cons, Nat.mul_zero, Nat.le_zero] at hl
        omega
      | succ k =>
        have hdrop : (rest.drop 31).length ≤ 32 * k := by
          simp only [List.length_drop]
          simp only [List.length_cons] at hl
          omega
        have := ih (rest.drop 31) k hdrop
        simp only [chunks32Go, List.length_cons]
        omega

/-- A list of at most `32 * k` elements splits into at most `k` chunks. -/
theorem chunks32_length_le {α : Type} :
    ∀ (k : Nat) (l : List α), l.length ≤ 32 * k → (chunks32 l).length ≤ k := by
  intro k l hl
  exact chunks32Go_length_le l.length l k hl

/-- A chunk that is not exactly 32 bytes long, or whose big-endian value is
out of the field, fails to decode. -/
theorem frFromBytes_error (c : List Nat)
    (h : c.length ≠ BYTES_PER_FIELD_ELEMENT ∨ blsModulus ≤ bytesToNatBE c) :
    ∃ e, frFromBytes c = .error e := by
  unfold frFromBytes
  by_cases hlen : c.length ≠ BYTES_PER_FIELD_ELEMENT
  · rw [if_pos hlen]
    exact ⟨_, rfl⟩
  · rw [if_neg hlen]
    rcases h with h | h
    · exact absurd h hlen
    · rw [if_pos h]
      exact ⟨_, rfl⟩

/-- If some chunk fails to decode, collecting fails (with the first error). -/
theorem collectFr_error :
    ∀ (cs : List (List Nat)),
      (∃ c ∈ cs, ∃ e, frFromBytes c = .error e) →
      ∃ e, collectFr cs = .error e := by
  intro cs
  induction cs with
  | nil =>
    rintro ⟨c, hc, _⟩
    cases hc
  | cons c rest ih =>
    rintro ⟨t, ht, e, he⟩
    cases hfc : frFromBytes c with
    | error e0 =>
      refine ⟨e0, ?_⟩
      simp only [collectFr, hfc]
      rfl
    | ok v =>
      have htr : t ∈ rest := by
        rcases List.mem_cons.mp ht with rfl | htr
        · rw [hfc] at he
          cases he
        · exact htr
      obtain ⟨e1, he1⟩ := ih ⟨t, htr, e, he⟩
      refine ⟨e1, ?_⟩
      simp only [collectFr, hfc, he1]
      rfl

/-- A list whose length is not a multiple of 32 produces a trailing chunk
shorter than 32 (whatever the gas, as long as it covers the length). -/
theorem chunks32Go_short_chunk {α : Type} :
    ∀ (gas : Nat) (l : List α), l.length ≤ gas → ¬ (32 ∣ l.length) →
      ∃ c ∈ chunks32Go gas l, c.length ≠ 32 := by
  intro gas
  induction gas with
  | zero =>
    intro l hle hdiv
    have hz : l.length = 0 := Nat.le_zero.mp hle
    exact absurd (hz ▸ Dvd.intro 0 rfl) hdiv
  | succ gas ih =>
    intro l hle hdiv
    cases l with
    | nil => exact absurd (Dvd.intro 0 rfl) hdiv
    | cons a rest =>
      by_cases hlen : (a :: rest).length < 32
      · refine ⟨(a :: rest).take 32, ?_, ?_⟩
        · simp only [chunks32Go]
          exact List.mem_cons_self _ _
        · rw [List.length_take]
          omega
      · push_neg at hlen
        have hrest : (rest.drop 31).length ≤ gas := by
          simp only [List.length_drop]
          simp only [List.length_cons] at hle
          omega
        have hdiv' : ¬ (32 ∣ (rest.drop 31).length) := by
          simp only [List.length_drop]
          intro hd
          apply hdiv
          have hsplit : (a :: rest).length = (rest.length - 31) + 32 := by
            simp only [List.length_cons]
            simp only [List.length_cons] at hlen
            omega
          rw [hsplit]
          exact Nat.dvd_add hd (Dvd.intro 1 (Nat.one_mul 32))
        obtain ⟨c, hc, hcl⟩ := ih (rest.drop 31) hrest hdiv'
        refine ⟨c, ?_, hcl⟩
        simp only [chunks32Go]
        exact List.mem_cons_of_mem _ hc

/-- `chunks32` version of the short-chunk lemma. -/
theorem chunks32_short_chunk {α : Type} (l : List α) (hdiv : ¬ (32 ∣ l.length)) :
    ∃ c ∈ chunks32 l, c.length ≠ 32 :=
  chunks32Go_short_chunk l.length l (Nat.le_refl _) hdiv

/-- `try_from_bytes_pad` rejects any not-overlong input with a bad chunk
(wrong size or out-of-field value). -/
theorem blobTryFromBytesPad_error_of_bad_chunk (bytes : List Nat)
    (hlen : bytes.length ≤ BYTES_PER_BLOB)
    (hbad : ∃ c ∈ chunks32 bytes,
      c.length ≠ BYTES_PER_FIELD_ELEMENT ∨ blsModulus ≤ bytesToNatBE c) :
    ∃ e, blobTryFromBytesPad bytes = .error e := by
  obtain ⟨c, hc, hcb⟩ := hbad
  obtain ⟨e, he⟩ := collectFr_error (chunks32 bytes) ⟨c, hc, frFromBytes_error c hcb⟩
  refine ⟨e, ?_⟩
  unfold blobTryFromBytesPad blobFromBytes
  rw [if_neg (Nat.not_lt.mpr hlen), he]
  rfl

/-- Counterexample to Claim C6 as stated: a 5-byte input has length at most
`BYTES_PER_BLOB` yet `try_from_bytes_pad` rejects it — `Blob::from_bytes`
chunks the bytes BEFORE padding, and the 5-byte chunk fails the conversion to
`[u8; 32]`.  So `try_from_bytes_pad` does not accept every input of length at
most `BYTES_PER_BLOB`. -/
theorem blob_try_from_bytes_pad_counterexample :
    (List.replicate 5 0).length ≤ BYTES_PER_BLOB ∧
      blobTryFromBytesPad (List.replicate 5 0) =
        .error "Chunked into incorrect number of bytes" := by
  exact ⟨by decide, rfl⟩

/-- Claim C6 (amended).  `Blob::try_from_bytes` succeeds only on inputs of
exactly `BYTES_PER_BLOB` bytes and errors on any other length.
`Blob::try_from_bytes_pad` errors on inputs longer than `BYTES_PER_BLOB`;
it accepts an input of length at most `BYTES_PER_BLOB` when the input splits
into whole 32-byte chunks that all decode to canonical scalars (in
particular whenever the length is a multiple of 32 and the chunk values are
below the field modulus), producing the decoded scalars zero-padded to
`FIELD_ELEMENTS_PER_BLOB`; inputs whose last chunk is short of 32 bytes, or
with an out-of-field chunk, are rejected. -/
theorem blob_try_from_bytes_length_contract :
    (∀ (bytes : List Nat) (res : List Nat),
      blobTryFromBytes bytes = .ok res → bytes.length = BYTES_PER_BLOB) ∧
    (∀ (bytes : List Nat), bytes.length ≠ BYTES_PER_BLOB →
      blobTryFromBytes bytes = .error "Invalid byte length") ∧
    (∀ (bytes : List Nat), BYTES_PER_BLOB < bytes.length →
      blobTryFromBytesPad bytes = .error "Invalid byte length") ∧
    (∀ (bytes : List Nat),
      bytes.length ≤ BYTES_PER_BLOB →
      (∀ c ∈ chunks32 bytes, c.length = 32 ∧ bytesToNatBE c < blsModulus) →
      ∃ b, blobTryFromBytesPad bytes = .ok b ∧
        b.length = FIELD_ELEMENTS_PER_BLOB ∧
        b = (chunks32 bytes).map bytesToNatBE ++
          List.replicate (FIELD_ELEMENTS_PER_BLOB - (chunks32 bytes).length) 0) ∧
    (∀ (bytes : List Nat), bytes.length ≤ BYTES_PER_BLOB →
      ¬ (32 ∣ bytes.length) →
      ∃ e, blobTryFromBytesPad bytes = .error e) ∧
    (∀ (bytes : List Nat), bytes.length ≤ BYTES_PER_BLOB →
      (∃ c ∈ chunks32 bytes, blsModulus ≤ bytesToNatBE c) →
      ∃ e, blobTryFromBytesPad bytes = .error e) := by
  refine ⟨?_, ?_, ?_, ?_, ?_, ?_⟩
  · intro bytes res h
    by_cases hlen : bytes.length = BYTES_PER_BLOB
    · exact hlen
    · unfold blobTryFromBytes at h
      rw [if_pos hlen] at h
      cases h
  · intro bytes hlen
    unfold blobTryFromBytes
    rw [if_pos hlen]
  · intro bytes hlen
    unfold blobTryFromBytesPad
    rw [if_pos hlen]
  · intro bytes hlen hchunks
    have hdecode : blobFromBytes bytes = .ok ((chunks32 bytes).map bytesToNatBE) := by
      refine collectFr_ok (chunks32 bytes) ?_
      intro c hc
      obtain ⟨hclen, hcval⟩ := hchunks c hc
      unfold frFromBytes
      rw [if_neg (by simp [hclen, BYTES_PER_FIELD_ELEMENT]),
        if_neg (Nat.not_le.mpr hcval)]
    have hcount : (chunks32 bytes).length ≤ FIELD_ELEMENTS_PER_BLOB := by
      refine chunks32_length_le FIELD_ELEMENTS_PER_BLOB bytes ?_
      simpa [BYTES_PER_BLOB, BYTES_PER_FIELD_ELEMENT] using hlen
    have hmaplen : ((chunks32 bytes).map bytesToNatBE).length ≤ FIELD_ELEMENTS_PER_BLOB := by
      simpa using hcount
    have hform : (if ((chunks32 bytes).map bytesToNatBE).length = FIELD_ELEMENTS_PER_BLOB
          then (chunks32 bytes).map bytesToNatBE
          else listResize ((chunks32 bytes).map bytesToNatBE) FIELD_ELEMENTS_PER_BLOB 0) =
        (chunks32 bytes).map bytesToNatBE ++
          List.replicate (FIELD_ELEMENTS_PER_BLOB - (chunks32 bytes).length) 0 := by
      by_cases heq : ((chunks32 bytes).map bytesToNatBE).length = FIELD_ELEMENTS_PER_BLOB
      · rw [if_pos heq]
        have hz : FIELD_ELEMENTS_PER_BLOB - (chunks32 bytes).length = 0 := by
          rw [List.length_map] at heq
          omega
        simp [hz]
      · rw [if_neg heq]
        unfold listResize
        rw [List.take_of_length_le hmaplen]
        congr 2
        rw [List.length_map]
    refine ⟨(chunks32 bytes).map bytesToNatBE ++
        List.replicate (FIELD_ELEMENTS_PER_BLOB - (chunks32 bytes).length) 0, ?_, ?_, rfl⟩
    · unfold blobTryFromBytesPad
      rw [if_neg (Nat.not_lt.mpr hlen), hdecode]
      simp only [Except.map]
      exact congrArg Except.ok hform
    · rw [List.length_append, List.length_map, List.length_replicate]
      omega
  · intro bytes hlen hdiv
    obtain ⟨c, hc, hcl⟩ := chunks32_short_chunk bytes hdiv
    exact blobTryFromBytesPad_error_of_bad_chunk bytes hlen ⟨c, hc, Or.inl hcl⟩
  · intro bytes hlen hbad
    obtain ⟨c, hc, hcv⟩ := hbad
    exact blobTryFromBytesPad_error_of_bad_chunk bytes hlen ⟨c, hc, Or.inr hcv⟩

/-- Witness for C6: 32 zero bytes decode to the zero scalar and are padded
with three zero scalars to the blob length 4; a 33-byte input (not a multiple
of 32) is rejected, and so are 32 bytes of 0xFF (out of field). -/
theorem blob_try_from_bytes_length_contract_witness :
    (∃ b, blobTryFromBytesPad (List.replicate 32 0) = .ok b ∧
      b.length = FIELD_ELEMENTS_PER_BLOB ∧
      b = (chunks32 (List.replicate 32 0)).map bytesToNatBE ++
        List.replicate (FIELD_ELEMENTS_PER_BLOB - (chunks32 (List.replicate 32 0)).length) 0) ∧
    (∃ e, blobTryFromBytesPad (List.replicate 33 0) = .error e) ∧
    (∃ e, blobTryFromBytesPad (List.replicate 32 255) = .error e) :=
  ⟨blob_try_from_bytes_length_contract.2.2.2.1 (List.replicate 32 0)
      (by decide) (by decide),
    blob_try_from_bytes_length_contract.2.2.2.2.1 (List.replicate 33 0)
      (by decide) (by decide),
    blob_try_from_bytes_length_contract.2.2.2.2.2 (List.replicate 32 255)
      (by decide) (by decide)⟩

/-- A successful `claim` dispatch appends the caller to the claimant list,
and can only happen when the caller was not yet listed and the list was not
full. -/
theorem claim_ok_shape (maxClaimants : Nat) (claimants : List AccountId)
    (who : AccountId) (nowSubOk : Bool)
    (preCommit leftCommit rightCommit : Option KZGCommitment) (solutionOk : Bool)
    (l : List AccountId)
    (h : claim maxClaimants claimants who nowSubOk preCommit leftCommit rightCommit
      solutionOk = .ok l) :
    l = claimants ++ [who] ∧ who ∉ claimants ∧ claimants.length < maxClaimants := by
  unfold claim at h
  by_cases h1 : claimants.length < maxClaimants
  · rw [if_pos h1] at h
    by_cases h2 : who ∈ claimants
    · rw [if_pos h2] at h
      cases h
    · rw [if_neg h2] at h
      have h3 : claimants.length + 1 ≤ maxClaimants := h1
      cases nowSubOk <;> cases preCommit <;> cases leftCommit <;> cases rightCommit <;>
        cases solutionOk <;> simp [h3] at h <;>
        exact ⟨h.symm, h2, h1⟩
  · rw [if_neg h1] at h
    cases h

/-- Claim C8.  The per-block claimant list maintained by the `claim`
extrinsic never exceeds `MaxClaimantsPerBlock` and never lists the same
account twice: (1) a dispatch preserves the bounded, duplicate-free
invariant; (2) when the list is already full the dispatch fails with
`MaxClaimantsReached`, leaving the list unchanged and paying no reward;
(3) a repeated claim by a listed account (with the list not yet full) fails
with `AlreadyClaimed`, leaving the list unchanged and paying no reward. -/
theorem claim_claimants_bounded_and_unique :
    ∀ (maxClaimants : Nat) (claimants : List AccountId) (who : AccountId)
      (nowSubOk : Bool) (preCommit leftCommit rightCommit : Option KZGCommitment)
      (solutionOk : Bool) (rewardAmount : Nat),
      (claimants.Nodup → claimants.length ≤ maxClaimants →
        (claimPost maxClaimants claimants who nowSubOk preCommit leftCommit
            rightCommit solutionOk rewardAmount).1.Nodup ∧
          (claimPost maxClaimants claimants who nowSubOk preCommit leftCommit
            rightCommit solutionOk rewardAmount).1.length ≤ maxClaimants) ∧
      (maxClaimants ≤ claimants.length →
        claim maxClaimants claimants who nowSubOk preCommit leftCommit rightCommit
            solutionOk = .error .MaxClaimantsReached ∧
          claimPost maxClaimants claimants who nowSubOk preCommit leftCommit
            rightCommit solutionOk rewardAmount = (claimants, 0)) ∧
      (who ∈ claimants → claimants.length < maxClaimants →
        claim maxClaimants claimants who nowSubOk preCommit leftCommit rightCommit
            solutionOk = .error .AlreadyClaimed ∧
          claimPost maxClaimants claimants who nowSubOk preCommit leftCommit
            rightCommit solutionOk rewardAmount = (claimants, 0)) := by
  intro maxClaimants claimants who nowSubOk preCommit leftCommit rightCommit
    solutionOk rewardAmount
  refine ⟨?_, ?_, ?_⟩
  · intro hnd hle
    cases hr : claim maxClaimants claimants who nowSubOk preCommit leftCommit
        rightCommit solutionOk with
    | error e =>
      simp only [claimPost, hr]
      exact ⟨hnd, hle⟩
    | ok l =>
      obtain ⟨rfl, hmem, hlt⟩ := claim_ok_shape maxClaimants claimants who nowSubOk
        preCommit leftCommit rightCommit solutionOk l hr
      simp only [claimPost, hr]
      constructor
      · simp [List.nodup_append, hnd, hmem]
      · simp only [List.length_append, List.length_cons, List.length_nil]
        omega
  · intro hfull
    have h1 : ¬ claimants.length < maxClaimants := Nat.not_lt.mpr hfull
    constructor
    · unfold claim
      rw [if_neg h1]
    · unfold claimPost claim
      rw [if_neg h1]
  · intro hmem hlt
    constructor
    · unfold claim
      rw [if_pos hlt, if_pos hmem]
    · unfold claimPost claim
      rw [if_pos hlt, if_pos hmem]

/-- Witness for C8: with capacity 1 and account 5 already listed, a second
claim by 5 fails with `MaxClaimantsReached` (the list is full), and with
capacity 2 it fails with `AlreadyClaimed`; the list and balance are
untouched. -/
theorem claim_claimants_bounded_and_unique_witness :
    (claim 1 [5] 5 true (some 0) (some 0) (some 0) true = .error .MaxClaimantsReached ∧
      claimPost 1 [5] 5 true (some 0) (some 0) (some 0) true 100 = ([5], 0)) ∧
    (claim 2 [5] 5 true (some 0) (some 0) (some 0) true = .error .AlreadyClaimed ∧
      claimPost 2 [5] 5 true (some 0) (some 0) (some 0) true 100 = ([5], 0)) :=
  ⟨(claim_claimants_bounded_and_unique 1 [5] 5 true (some 0) (some 0) (some 0)
      true 100).2.1 (by decide),
    (claim_claimants_bounded_and_unique 2 [5] 5 true (some 0) (some 0) (some 0)
      true 100).2.2 (by decide) (by decide)⟩

end Melodot
